import Mathlib

/-!
Verification of the `cy-suite/nltk` machine-translation fragment.

The development shallowly embeds:
* `modified_precision` — the modified n-gram precision at the core of BLEU
  (spec §4.1; the implementation `_modified_precision` lives in
  `nltk/translate/bleu_score.py`, outside the provided sources, so it is
  modelled from the specification, with real-number arithmetic rendered as
  exact rationals `ℚ`);
* `read_lang_model` and `read_phrase_table` from `nltk/translate/util.py`,
  embedded over an explicit list of (already decoded) input lines, with
  Python dictionaries rendered as association lists and Python `float`
  values rendered as exact rationals.
-/

namespace NltkTranslate

/-! ### Python string primitives, embedded structurally over `List Char` -/

/-- Python `str.split('\t')` on a character list: split at every tab,
keeping empty fields (`"".split('\t') == ['']`). -/
def splitTabs : List Char → List Char → List (List Char)
  | [], acc => [acc.reverse]
  | '\t' :: rest, acc => acc.reverse :: splitTabs rest []
  | c :: rest, acc => splitTabs rest (c :: acc)

/-- Python `str.split(' ||| ')` on a character list: split at every
occurrence of the five-character separator, scanning left to right,
keeping empty fields. -/
def splitFields : List Char → List Char → List (List Char)
  | ' ' :: '|' :: '|' :: '|' :: ' ' :: rest, acc => acc.reverse :: splitFields rest []
  | c :: rest, acc => splitFields rest (c :: acc)
  | [], acc => [acc.reverse]

/-- Python `str.split()` (no argument) on a character list: split on runs
of whitespace, discarding empty fields (`"".split() == []`). -/
def splitWS : List Char → List Char → List (List Char)
  | [], [] => []
  | [], acc => [acc.reverse]
  | c :: rest, acc =>
      if c.isWhitespace then
        match acc with
        | [] => splitWS rest []
        | _ => acc.reverse :: splitWS rest []
      else splitWS rest (c :: acc)

/-- Python `str.strip()` on a character list: drop leading and trailing
whitespace. -/
def pyStrip (l : List Char) : List Char :=
  ((l.dropWhile Char.isWhitespace).reverse.dropWhile Char.isWhitespace).reverse

/-- Python `str.split()` of a string, producing token strings. -/
def pySplit (s : String) : List String :=
  (splitWS s.data []).map fun cs => ⟨cs⟩

/-- Numeric value of a list of decimal digit characters (most significant
first); `0` on the empty list. -/
def digitsVal : List Char → ℕ → ℕ
  | [], acc => acc
  | c :: rest, acc => digitsVal rest (acc * 10 + (c.toNat - '0'.toNat))

/-- Python `float(...)` on an unsigned decimal numeral, as an exact
rational: digits, optionally followed by a point and further digits
(`"5."` and `".5"` are both legal, `"."` and `""` are not). Scientific
notation and the special values are not modelled; the files parsed here
use plain decimal numerals. -/
def parseUnsignedFloat (l : List Char) : Option ℚ :=
  let intPart := l.takeWhile Char.isDigit
  match l.dropWhile Char.isDigit with
  | [] => if intPart.isEmpty then none else some (digitsVal intPart 0 : ℚ)
  | '.' :: frac =>
      if frac.all Char.isDigit ∧ ¬(intPart.isEmpty ∧ frac.isEmpty) then
        some ((digitsVal intPart 0 : ℚ) + (digitsVal frac 0 : ℚ) / (10 : ℚ) ^ frac.length)
      else none
  | _ => none

/-- Python `float(...)` on a possibly signed decimal numeral, as an exact
rational; `none` models a `ValueError`. -/
def parseFloat (s : String) : Option ℚ :=
  match s.data with
  | '-' :: rest => (parseUnsignedFloat rest).map Neg.neg
  | '+' :: rest => parseUnsignedFloat rest
  | l => parseUnsignedFloat l

/-! ### Association lists: the embedding of Python `dict` -/

variable {K V : Type} [DecidableEq K]

/-- `d[k] = v` on a Python dict embedded as an association list: overwrite
the entry when the key is present, append it otherwise. -/
def alInsert : List (K × V) → K → V → List (K × V)
  | [], k, v => [(k, v)]
  | (k', v') :: rest, k, v =>
      if k' = k then (k, v) :: rest else (k', v') :: alInsert rest k v

/-- `d.get(k)` on a Python dict embedded as an association list. -/
def alLookup : List (K × V) → K → Option V
  | [], _ => none
  | (k, v) :: rest, g => if k = g then some v else alLookup rest g

theorem alLookup_alInsert_self (d : List (K × V)) (k : K) (v : V) :
    alLookup (alInsert d k v) k = some v := by
  induction d with
  | nil => simp [alInsert, alLookup]
  | cons p rest ih =>
      by_cases hp : p.1 = k <;> simp [alInsert, alLookup, hp, ih]

theorem alLookup_alInsert_ne (d : List (K × V)) (k k' : K) (v : V) (hne : k' ≠ k) :
    alLookup (alInsert d k v) k' = alLookup d k' := by
  have hne' : k ≠ k' := Ne.symm hne
  induction d with
  | nil => simp [alInsert, alLookup, hne']
  | cons p rest ih =>
      by_cases hp : p.1 = k
      · by_cases hp' : p.1 = k'
        · exact absurd (hp.symm.trans hp') hne'
        · simp [alInsert, alLookup, hp, hp', hne']
      · simp only [alInsert, if_neg hp, alLookup]
        split <;> simp [ih]

/-! ### Modified n-gram precision

`_modified_precision` is imported by the test suite from
`nltk/translate/bleu_score.py`, which is not among the provided sources;
the definitions below are therefore modelled from the specification
(§4.1), with sentences as lists of token strings and real numbers as
exact rationals. -/

/-- Modelled from the spec: step 1 of §4.1 — the multiset of n-grams of
order `n` of a sentence, as the sliding windows of width `n` (empty when
the sentence has fewer than `n` tokens). -/
def ngrams (n : ℕ) : List String → List (List String)
  | [] => []
  | t :: rest =>
      if n ≤ (t :: rest).length then (t :: rest).take n :: ngrams n rest else []

/-- Modelled from the spec: incrementing one n-gram's entry of a count
table (§3, "Count table"). -/
def addCount : List (List String × ℕ) → List String → List (List String × ℕ)
  | [], g => [(g, 1)]
  | (k, c) :: rest, g =>
      if k = g then (k, c + 1) :: rest else (k, c) :: addCount rest g

/-- Modelled from the spec: the count table of a sentence's n-gram
multiset (§3) — a mapping from each n-gram that occurs to its number of
occurrences. -/
def mkCountTable : List (List String) → List (List String × ℕ)
  | [] => []
  | g :: rest => addCount (mkCountTable rest) g

/-- Count stored in a count table for an n-gram, `0` when absent. -/
def tableCount : List (List String × ℕ) → List String → ℕ
  | [], _ => 0
  | (k, c) :: rest, g => if k = g then c else tableCount rest g

/-- Modelled from the spec: step 2b of §4.1 — `max_ref_count(g)`, the
maximum over the references of the count of `g` in each single reference
(`0` when there is no reference). -/
def maxRefCount (references : List (List String)) (n : ℕ) (g : List String) : ℕ :=
  (references.map fun r => tableCount (mkCountTable (ngrams n r)) g).foldr max 0

/-- Modelled from the spec: steps 2–3 of §4.1 — the numerator, the sum
over the distinct candidate n-grams of the clipped count
`min(c_cand(g), max_ref_count(g))`. -/
def mpNum (references : List (List String)) (candidate : List String) (n : ℕ) : ℕ :=
  ((mkCountTable (ngrams n candidate)).map fun p => min p.2 (maxRefCount references n p.1)).sum

/-- Modelled from the spec: step 4 of §4.1 — the denominator, the sum of
`c_cand(g)` over the distinct candidate n-grams. -/
def mpDen (candidate : List String) (n : ℕ) : ℕ :=
  ((mkCountTable (ngrams n candidate)).map fun p => p.2).sum

/-- Modelled from the spec: step 5 of §4.1 — numerator over denominator,
except that a candidate with no n-grams of order `n` yields `0` rather
than a division error. -/
def mpCore (references : List (List String)) (candidate : List String) (n : ℕ) : ℚ :=
  if mpDen candidate n = 0 then 0 else (mpNum references candidate n : ℚ) / (mpDen candidate n : ℚ)

/-- Modelled from the spec: the contract of §4.1 together with the
propagation policy of §7 — `modified_precision` fails with an
InvalidArgument-class condition on a non-positive n-gram order and
otherwise returns the precision of §4.1. -/
def modified_precision (references : List (List String)) (candidate : List String)
    (n : ℤ) : Except String ℚ :=
  if n ≤ 0 then Except.error "InvalidArgument: ngram order n must be positive"
  else Except.ok (mpCore references candidate n.toNat)

/-! ### Count-table lemmas -/

theorem tableCount_addCount (t : List (List String × ℕ)) (g x : List String) :
    tableCount (addCount t g) x =
      if g = x then tableCount t x + 1 else tableCount t x := by
  induction t with
  | nil =>
      by_cases h : g = x <;> simp [addCount, tableCount, h]
  | cons p rest ih =>
      obtain ⟨k, c⟩ := p
      by_cases hk : k = g
      · subst hk
        by_cases h : k = x <;> simp [addCount, tableCount, h]
      · by_cases h : k = x
        · subst h
          simp [addCount, tableCount, hk, Ne.symm hk]
        · simp [addCount, tableCount, hk, h, ih]

theorem tableCount_mkCountTable (L : List (List String)) (x : List String) :
    tableCount (mkCountTable L) x = L.count x := by
  induction L with
  | nil => simp [mkCountTable, tableCount]
  | cons g rest ih =>
      rw [mkCountTable, tableCount_addCount, List.count_cons]
      by_cases h : g = x
      · simp [h, ih]
      · have h' : ¬x = g := fun hx => h hx.symm
        simp [h, h', ih]

theorem mem_keys_addCount (t : List (List String × ℕ)) (g x : List String) :
    x ∈ (addCount t g).map Prod.fst ↔ x = g ∨ x ∈ t.map Prod.fst := by
  induction t with
  | nil => simp [addCount]
  | cons p rest ih =>
      obtain ⟨k, c⟩ := p
      by_cases hk : k = g
      · subst hk
        simp [addCount, or_comm, or_assoc, eq_comm]
      · simp only [addCount, if_neg hk, List.map_cons, List.mem_cons, ih]
        tauto

theorem nodup_keys_addCount (t : List (List String × ℕ)) (g : List String)
    (h : (t.map Prod.fst).Nodup) : ((addCount t g).map Prod.fst).Nodup := by
  induction t with
  | nil => simp [addCount]
  | cons p rest ih =>
      obtain ⟨k, c⟩ := p
      simp only [List.map_cons, List.nodup_cons] at h
      by_cases hk : k = g
      · subst hk
        simpa [addCount] using h
      · simp only [addCount, if_neg hk, List.map_cons, List.nodup_cons]
        refine ⟨fun hmem => ?_, ih h.2⟩
        rcases (mem_keys_addCount rest g k).mp hmem with h1 | h1
        · exact hk h1
        · exact h.1 h1

theorem nodup_keys_mkCountTable (L : List (List String)) :
    ((mkCountTable L).map Prod.fst).Nodup := by
  induction L with
  | nil => simp [mkCountTable]
  | cons g rest ih => exact nodup_keys_addCount _ g ih

theorem mem_keys_mkCountTable (L : List (List String)) (x : List String) :
    x ∈ (mkCountTable L).map Prod.fst ↔ x ∈ L := by
  induction L with
  | nil => simp [mkCountTable]
  | cons g rest ih => rw [mkCountTable, mem_keys_addCount, ih, List.mem_cons]

theorem sum_map_addCount (t : List (List String × ℕ)) (g : List String) :
    ((addCount t g).map fun p => p.2).sum = ((t.map fun p => p.2).sum) + 1 := by
  induction t with
  | nil => simp [addCount]
  | cons p rest ih =>
      obtain ⟨k, c⟩ := p
      by_cases hk : k = g
      · simp [addCount, hk]
        ring
      · simp [addCount, hk, ih]
        ring

theorem mpDen_eq_length (candidate : List String) (n : ℕ) :
    mpDen candidate n = (ngrams n candidate).length := by
  unfold mpDen
  induction ngrams n candidate with
  | nil => simp [mkCountTable]
  | cons g rest ih => rw [mkCountTable, sum_map_addCount, ih, List.length_cons]

/-- A sum over the entries of an association list with duplicate-free keys
is a `Finset` sum over its key set, each entry's value recovered through
`tableCount`. -/
theorem sum_map_eq_sum_keys (t : List (List String × ℕ)) (f : List String → ℕ → ℕ)
    (h : (t.map Prod.fst).Nodup) :
    (t.map fun p => f p.1 p.2).sum =
      ∑ g ∈ (t.map Prod.fst).toFinset, f g (tableCount t g) := by
  induction t with
  | nil => simp
  | cons p rest ih =>
      obtain ⟨k, c⟩ := p
      simp only [List.map_cons, List.nodup_cons] at h
      have hk : k ∉ (rest.map Prod.fst).toFinset := by
        simpa using h.1
      rw [List.map_cons, List.sum_cons, List.map_cons, List.toFinset_cons,
        Finset.sum_insert hk, ih h.2]
      have hc : tableCount ((k, c) :: rest) k = c := by simp [tableCount]
      rw [hc]
      congr 1
      refine Finset.sum_congr rfl fun g hg => ?_
      have hgk : k ≠ g := by
        intro hkg
        exact h.1 (by simpa [hkg] using List.mem_toFinset.mp hg)
      simp [tableCount, hgk]

theorem mpNum_eq_sum_toFinset (references : List (List String))
    (candidate : List String) (n : ℕ) :
    mpNum references candidate n =
      ∑ g ∈ (ngrams n candidate).toFinset,
        min ((ngrams n candidate).count g)
          ((references.map fun r => (ngrams n r).count g).foldr max 0) := by
  unfold mpNum
  rw [sum_map_eq_sum_keys _ (fun g c => min c (maxRefCount references n g))
    (nodup_keys_mkCountTable _)]
  have hset : ((mkCountTable (ngrams n candidate)).map Prod.fst).toFinset =
      (ngrams n candidate).toFinset := by
    ext x
    rw [List.mem_toFinset, List.mem_toFinset, mem_keys_mkCountTable]
  rw [hset]
  refine Finset.sum_congr rfl fun g _ => ?_
  rw [tableCount_mkCountTable]
  unfold maxRefCount
  congr 1
  refine congrArg _ (List.map_congr_left fun r _ => ?_)
  rw [tableCount_mkCountTable]

theorem ngrams_eq_nil_of_short (n : ℕ) (s : List String) (h : s.length < n) :
    ngrams n s = [] := by
  cases s with
  | nil => rfl
  | cons t rest => simpa [ngrams] using Nat.not_le_of_lt h

theorem mpNum_le_mpDen (references : List (List String)) (candidate : List String)
    (n : ℕ) : mpNum references candidate n ≤ mpDen candidate n := by
  unfold mpNum mpDen
  exact List.sum_le_sum fun p _ => min_le_left _ _

/-! ### `read_lang_model` (`nltk/translate/util.py`)

The reader is embedded over the list of decoded lines of the ARPA file;
gzip decompression and `latin-1` decoding are outside the embedding.
Python `float` values are exact rationals. -/

/-- A key of the `lang_model` dictionary as a Python value: every key the
loop stores is a tuple of token strings, while the final membership test
`'<unk>' not in lang_model.keys()` compares the bare string `'<unk>'`
against the keys. -/
inductive PyKey where
  | str : String → PyKey
  | tuple : List String → PyKey
deriving DecidableEq

/-- The language-model dictionary: n-gram keys to
(log-probability, backoff log-probability). -/
abbrev LMDict := List (PyKey × (ℚ × ℚ))

/-- One iteration of the reading loop of `read_lang_model`: strip the
line, split on tabs, and when more than one column is present store
`(float(prob), float(backoff))` under `tuple(ngram.split())`, the backoff
column defaulting to `0` when only two columns are present; a column that
is not a numeral is a `ValueError`. -/
def processLMLine (d : LMDict) (raw : String) : Except String LMDict :=
  match splitTabs (pyStrip raw.data) [] with
  | p :: g :: b :: _ =>
      match parseFloat ⟨p⟩, parseFloat ⟨b⟩ with
      | some fp, some fb => Except.ok (alInsert d (PyKey.tuple (pySplit ⟨g⟩)) (fp, fb))
      | _, _ => Except.error "ValueError: could not convert string to float"
  | [p, g] =>
      match parseFloat ⟨p⟩ with
      | some fp => Except.ok (alInsert d (PyKey.tuple (pySplit ⟨g⟩)) (fp, 0))
      | none => Except.error "ValueError: could not convert string to float"
  | _ => Except.ok d

/-- The reading loop of `read_lang_model` over the remaining lines. -/
def readLMLines : LMDict → List String → Except String LMDict
  | d, [] => Except.ok d
  | d, l :: rest =>
      match processLMLine d l with
      | Except.ok d2 => readLMLines d2 rest
      | Except.error e => Except.error e

/-- `read_lang_model` from `nltk/translate/util.py`, over the decoded
lines of the ARPA file: run the reading loop, then set the default
`(-100.0, 0.0)` for `('<unk>',)` when the membership test
`'<unk>' not in lang_model.keys()` holds — a test that compares the bare
string against tuple keys. -/
def read_lang_model (lines : List String) : Except String LMDict :=
  match readLMLines [] lines with
  | Except.error e => Except.error e
  | Except.ok d =>
      if d.any fun p => p.1 = PyKey.str "<unk>" then Except.ok d
      else Except.ok (alInsert d (PyKey.tuple ["<unk>"]) (-100, 0))

/-! ### `read_phrase_table` (`nltk/translate/util.py`) -/

/-- The phrase-table dictionary: source phrase to (target phrase to
probability). -/
abbrev PTDict := List (String × List (String × ℚ))

/-- One iteration of the reading loop of `read_phrase_table`: strip the
line, split on `' ||| '`, unpack the first three fields (fewer than three
is a `ValueError`), parse the first whitespace-separated probability
(no probability is an `IndexError`, a non-numeral a `ValueError`), and
run `phrase_table.setdefault(src, {})[trg] = prob`. -/
def processPTLine (pt : PTDict) (raw : String) : Except String PTDict :=
  match splitFields (pyStrip raw.data) [] with
  | src :: trg :: probs :: _ =>
      match splitWS probs [] with
      | [] => Except.error "IndexError: list index out of range"
      | p0 :: _ =>
          match parseFloat ⟨p0⟩ with
          | some q =>
              Except.ok (alInsert pt ⟨src⟩
                (alInsert ((alLookup pt ⟨src⟩).getD []) ⟨trg⟩ q))
          | none => Except.error "ValueError: could not convert string to float"
  | _ => Except.error "ValueError: not enough values to unpack"

/-- The reading loop of `read_phrase_table` over the remaining lines. -/
def readPTLines : PTDict → List String → Except String PTDict
  | pt, [] => Except.ok pt
  | pt, l :: rest =>
      match processPTLine pt l with
      | Except.ok pt2 => readPTLines pt2 rest
      | Except.error e => Except.error e

/-- `read_phrase_table` from `nltk/translate/util.py`, over the decoded
lines of the phrase-table file. -/
def read_phrase_table (lines : List String) : Except String PTDict :=
  readPTLines [] lines

/-- Nested lookup in a phrase table: the probability stored for a
(source, target) phrase pair. -/
def ptLookup (pt : PTDict) (src trg : String) : Option ℚ :=
  match alLookup pt src with
  | some inner => alLookup inner trg
  | none => none

/-- The n-gram key that a line of an ARPA file contributes to the
language model, when it contributes one. -/
def lmLineKey (raw : String) : Option (List String) :=
  match splitTabs (pyStrip raw.data) [] with
  | _ :: g :: _ => some (pySplit ⟨g⟩)
  | _ => none

/-- The (source, target) phrase pair that a line of a phrase-table file
addresses, when it has at least two fields. -/
def ptLineKey (raw : String) : Option (String × String) :=
  match splitFields (pyStrip raw.data) [] with
  | src :: trg :: _ => some (⟨src⟩, ⟨trg⟩)
  | _ => none

/-! ### Concrete sentences of the specification's scenarios (§8),
whitespace-tokenized exactly as in the unit test. -/

def exRef1 : List String := pySplit "the cat is on the mat"

def exRef2 : List String := pySplit "there is a cat on the mat"

def exHyp : List String := pySplit "the the the the the the the"

def guideRef1 : List String :=
  pySplit "It is a guide to action that ensures that the military will forever heed Party commands."

def guideRef2 : List String :=
  pySplit "It is the guiding principle which guarantees the military forces always being under the command of the Party."

def guideRef3 : List String :=
  pySplit "It is the practical guide for the army always to heed the directions of the party"

def guideHyp1 : List String :=
  pySplit "It is a guide to action which ensures that the military always obeys the commands of the party"

/-! ### Claim theorems for the modified precision -/

/-- C1: for every reference set, candidate sentence and n-gram order
`n ≥ 1`, `modified_precision` returns, over each distinct candidate
n-gram `g`, the clipped count `min(c_cand(g), max_ref_count(g))` — the
maximum over single references, not their sum — summed and divided by the
total number of candidate n-grams (when the candidate has no n-grams both
sides are the defined value `0`). -/
theorem modified_precision_clipped_sum (references : List (List String))
    (candidate : List String) (n : ℤ) (h : 1 ≤ n) :
    modified_precision references candidate n =
      Except.ok
        (((∑ g ∈ (ngrams n.toNat candidate).toFinset,
            min ((ngrams n.toNat candidate).count g)
              ((references.map fun r => (ngrams n.toNat r).count g).foldr max 0) : ℕ) : ℚ) /
          ((ngrams n.toNat candidate).length : ℚ)) := by
  unfold modified_precision
  rw [if_neg (by omega)]
  congr 1
  unfold mpCore
  rw [← mpNum_eq_sum_toFinset, ← mpDen_eq_length]
  by_cases hd : mpDen candidate n.toNat = 0
  · have hn : mpNum references candidate n.toNat = 0 :=
      Nat.le_zero.mp (hd ▸ mpNum_le_mpDen references candidate n.toNat)
    simp [hd, hn]
  · rw [if_neg hd]

/-- C1 witness: the clipped-sum formula at the "the the the ..."
scenario. -/
theorem modified_precision_clipped_sum_witness :
    (1 : ℤ) ≤ 1 ∧
    modified_precision [exRef1, exRef2] exHyp 1 =
      Except.ok
        (((∑ g ∈ (ngrams (1 : ℤ).toNat exHyp).toFinset,
            min ((ngrams (1 : ℤ).toNat exHyp).count g)
              (([exRef1, exRef2].map fun r => (ngrams (1 : ℤ).toNat r).count g).foldr max 0) : ℕ) : ℚ) /
          ((ngrams (1 : ℤ).toNat exHyp).length : ℚ)) :=
  ⟨by decide, modified_precision_clipped_sum [exRef1, exRef2] exHyp 1 (by decide)⟩

/-- C2: a candidate with fewer than `n` tokens yields no n-grams of order
`n`, and `modified_precision` returns `0` rather than a division error. -/
theorem modified_precision_short_candidate (references : List (List String))
    (candidate : List String) (n : ℤ) (h1 : 1 ≤ n)
    (h2 : (candidate.length : ℤ) < n) :
    modified_precision references candidate n = Except.ok 0 := by
  have hng : ngrams n.toNat candidate = [] :=
    ngrams_eq_nil_of_short n.toNat candidate (by omega)
  unfold modified_precision
  rw [if_neg (by omega)]
  unfold mpCore
  rw [if_pos (by rw [mpDen_eq_length, hng]; rfl)]

/-- C2 witness: an empty candidate against a non-empty reference set at
`n = 1` gives `0` with no error. -/
theorem modified_precision_short_candidate_witness :
    (1 : ℤ) ≤ 1 ∧ ((([] : List String).length : ℤ) < 1) ∧
    modified_precision [exRef1] [] 1 = Except.ok 0 :=
  ⟨by decide, by decide,
    modified_precision_short_candidate [exRef1] [] 1 (by decide) (by decide)⟩

/-- C3 counterexample: on the spec's own "guide to action" scenario the
unigram precision is not the claimed `0.9444444444444444` (= 17/18):
under whitespace tokenization the first reference retains the token
`commands.` (trailing period attached), so the candidate token `commands`
matches no reference and the value is 16/18. -/
theorem modified_precision_hyp1_unigram_ne :
    modified_precision [guideRef1, guideRef2, guideRef3] guideHyp1 1 ≠
      Except.ok (17 / 18 : ℚ) := by
  have hd : mpDen guideHyp1 1 = 18 := by decide
  have hn : mpNum [guideRef1, guideRef2, guideRef3] guideHyp1 1 = 16 := by decide
  unfold modified_precision mpCore
  rw [if_neg (by decide)]
  rw [show (1 : ℤ).toNat = 1 from rfl, hd, hn]
  rw [if_neg (by decide)]
  intro hcontra
  rw [Except.ok.injEq] at hcontra
  norm_num at hcontra

/-- C3 (amended): the concrete scenarios of the spec, with the unigram
precision of the "guide to action" hypothesis corrected from 17/18 to
16/18: n=1 on the "the..." example gives 2/7, n=2 gives 0, and the
"guide to action" hypothesis gives 16/18 at n=1 and 10/17 at n=2. -/
theorem modified_precision_concrete_scenarios :
    modified_precision [exRef1, exRef2] exHyp 1 = Except.ok (2 / 7 : ℚ) ∧
    modified_precision [exRef1, exRef2] exHyp 2 = Except.ok 0 ∧
    modified_precision [guideRef1, guideRef2, guideRef3] guideHyp1 1 =
      Except.ok (16 / 18 : ℚ) ∧
    modified_precision [guideRef1, guideRef2, guideRef3] guideHyp1 2 =
      Except.ok (10 / 17 : ℚ) := by
  refine ⟨?_, ?_, ?_, ?_⟩
  · have hd : mpDen exHyp 1 = 7 := by decide
    have hn : mpNum [exRef1, exRef2] exHyp 1 = 2 := by decide
    unfold modified_precision mpCore
    rw [if_neg (by decide), show (1 : ℤ).toNat = 1 from rfl, hd, hn,
      if_neg (by decide), Except.ok.injEq]
    norm_num
  · have hd : mpDen exHyp 2 = 6 := by decide
    have hn : mpNum [exRef1, exRef2] exHyp 2 = 0 := by decide
    unfold modified_precision mpCore
    rw [if_neg (by decide), show (2 : ℤ).toNat = 2 from rfl, hd, hn,
      if_neg (by decide), Except.ok.injEq]
    norm_num
  · have hd : mpDen guideHyp1 1 = 18 := by decide
    have hn : mpNum [guideRef1, guideRef2, guideRef3] guideHyp1 1 = 16 := by decide
    unfold modified_precision mpCore
    rw [if_neg (by decide), show (1 : ℤ).toNat = 1 from rfl, hd, hn,
      if_neg (by decide), Except.ok.injEq]
    norm_num
  · have hd : mpDen guideHyp1 2 = 17 := by decide
    have hn : mpNum [guideRef1, guideRef2, guideRef3] guideHyp1 2 = 10 := by decide
    unfold modified_precision mpCore
    rw [if_neg (by decide), show (2 : ℤ).toNat = 2 from rfl, hd, hn,
      if_neg (by decide), Except.ok.injEq]
    norm_num

/-- C4: at order `n ≥ 1` the returned precision lies in `[0, 1]` whenever
the candidate has at least one n-gram of order `n`, and is exactly `0`
otherwise. -/
theorem modified_precision_unit_interval (references : List (List String))
    (candidate : List String) (n : ℤ) (h : 1 ≤ n) (q : ℚ)
    (hq : modified_precision references candidate n = Except.ok q) :
    (ngrams n.toNat candidate ≠ [] → 0 ≤ q ∧ q ≤ 1) ∧
    (ngrams n.toNat candidate = [] → q = 0) := by
  unfold modified_precision at hq
  rw [if_neg (by omega), Except.ok.injEq] at hq
  subst hq
  constructor
  · intro hne
    have hd : mpDen candidate n.toNat ≠ 0 := by
      rw [mpDen_eq_length]
      simpa using hne
    unfold mpCore
    rw [if_neg hd]
    have hdpos : (0 : ℚ) < (mpDen candidate n.toNat : ℚ) := by
      exact_mod_cast Nat.pos_of_ne_zero hd
    constructor
    · positivity
    · rw [div_le_one hdpos]
      exact_mod_cast mpNum_le_mpDen references candidate n.toNat
  · intro hnil
    have hd : mpDen candidate n.toNat = 0 := by
      rw [mpDen_eq_length, hnil]; rfl
    unfold mpCore
    rw [if_pos hd]

/-- C4 witness: the bounds at the "the the the ..." scenario, which has
unigrams. -/
theorem modified_precision_unit_interval_witness :
    (1 : ℤ) ≤ 1 ∧
    modified_precision [exRef1, exRef2] exHyp 1 =
      Except.ok (mpCore [exRef1, exRef2] exHyp (1 : ℤ).toNat) ∧
    ((ngrams (1 : ℤ).toNat exHyp ≠ [] →
        0 ≤ mpCore [exRef1, exRef2] exHyp (1 : ℤ).toNat ∧
          mpCore [exRef1, exRef2] exHyp (1 : ℤ).toNat ≤ 1) ∧
      (ngrams (1 : ℤ).toNat exHyp = [] →
        mpCore [exRef1, exRef2] exHyp (1 : ℤ).toNat = 0)) :=
  ⟨by decide, rfl,
    modified_precision_unit_interval [exRef1, exRef2] exHyp 1 (by decide) _ rfl⟩

/-- C5: a non-positive n-gram order fails with an InvalidArgument-class
error, while every order `n ≥ 1` succeeds on any input. -/
theorem modified_precision_order_guard (references : List (List String))
    (candidate : List String) (n : ℤ) :
    (n ≤ 0 → modified_precision references candidate n =
      Except.error "InvalidArgument: ngram order n must be positive") ∧
    (1 ≤ n → ∃ q, modified_precision references candidate n = Except.ok q) := by
  constructor
  · intro hn
    unfold modified_precision
    rw [if_pos hn]
  · intro hn
    exact ⟨mpCore references candidate n.toNat, by
      unfold modified_precision
      rw [if_neg (by omega)]⟩

/-- C5 witness: the error at `n = 0` and the success at `n = 1` on a
concrete input. -/
theorem modified_precision_order_guard_witness :
    modified_precision [exRef1] exHyp 0 =
      Except.error "InvalidArgument: ngram order n must be positive" ∧
    ∃ q, modified_precision [exRef1] exHyp 1 = Except.ok q :=
  ⟨(modified_precision_order_guard [exRef1] exHyp 0).1 (by decide),
    (modified_precision_order_guard [exRef1] exHyp 1).2 (by decide)⟩

/-- C6: with an empty reference set, a candidate that has at least one
n-gram of order `n ≥ 1` scores exactly `0` with no error. -/
theorem modified_precision_empty_references (candidate : List String) (n : ℤ)
    (h : 1 ≤ n) (_hc : ngrams n.toNat candidate ≠ []) :
    modified_precision [] candidate n = Except.ok 0 := by
  have hnum : mpNum [] candidate n.toNat = 0 := by
    simp [mpNum, maxRefCount]
  unfold modified_precision
  rw [if_neg (by omega)]
  unfold mpCore
  rw [hnum]
  simp

/-- C6 witness: a one-token candidate against no references at `n = 1`. -/
theorem modified_precision_empty_references_witness :
    (1 : ℤ) ≤ 1 ∧ ngrams (1 : ℤ).toNat exHyp ≠ [] ∧
    modified_precision [] exHyp 1 = Except.ok 0 :=
  ⟨by decide, by decide,
    modified_precision_empty_references exHyp 1 (by decide) (by decide)⟩

/-! ### Claim theorems for `read_lang_model` -/

theorem readLMLines_ok_append (l1 l2 : List String) (d dF : LMDict)
    (h : readLMLines d (l1 ++ l2) = Except.ok dF) :
    ∃ d1, readLMLines d l1 = Except.ok d1 ∧ readLMLines d1 l2 = Except.ok dF := by
  induction l1 generalizing d with
  | nil => exact ⟨d, rfl, h⟩
  | cons l rest ih =>
      rw [List.cons_append] at h
      unfold readLMLines at h
      cases hpl : processLMLine d l with
      | ok d2 =>
          rw [hpl] at h
          obtain ⟨d1, h1, h2⟩ := ih d2 h
          refine ⟨d1, ?_, h2⟩
          unfold readLMLines
          rw [hpl]
          exact h1
      | error e => rw [hpl] at h; cases h

theorem processLMLine_insert (d : LMDict) (raw : String) (p g : List Char)
    (rest : List (List Char)) (q q2 : ℚ)
    (hcols : splitTabs (pyStrip raw.data) [] = p :: g :: rest)
    (hq : parseFloat ⟨p⟩ = some q)
    (hq2 : (match rest with
            | [] => some 0
            | b :: _ => parseFloat ⟨b⟩) = some q2) :
    processLMLine d raw =
      Except.ok (alInsert d (PyKey.tuple (pySplit ⟨g⟩)) (q, q2)) := by
  unfold processLMLine
  rw [hcols]
  cases rest with
  | nil =>
      have hq2' : (0 : ℚ) = q2 := by simpa using hq2
      rw [← hq2']
      simp [hq]
  | cons b rest' =>
      have hq2' : parseFloat ⟨b⟩ = some q2 := hq2
      simp [hq, hq2']

theorem processLMLine_preserve (d d2 : LMDict) (raw : String) (k : List String)
    (hok : processLMLine d raw = Except.ok d2)
    (hk : lmLineKey raw ≠ some k) :
    alLookup d2 (PyKey.tuple k) = alLookup d (PyKey.tuple k) := by
  unfold processLMLine at hok
  unfold lmLineKey at hk
  split at hok
  · rename_i p g b rest heq
    rw [heq] at hk
    have hne : pySplit ⟨g⟩ ≠ k := by
      intro hkk
      exact hk (by simp [hkk])
    split at hok
    · rename_i fp fb hp hb
      cases hok
      exact alLookup_alInsert_ne _ _ _ _ (by simpa using fun hkk => hne hkk.symm)
    · cases hok
  · rename_i p g heq
    rw [heq] at hk
    have hne : pySplit ⟨g⟩ ≠ k := by
      intro hkk
      exact hk (by simp [hkk])
    split at hok
    · rename_i fp hp
      cases hok
      exact alLookup_alInsert_ne _ _ _ _ (by simpa using fun hkk => hne hkk.symm)
    · cases hok
  · rename_i heq
    cases hok
    rfl

theorem readLMLines_preserve (post : List String) (d d2 : LMDict) (k : List String)
    (hok : readLMLines d post = Except.ok d2)
    (hpost : ∀ l ∈ post, lmLineKey l ≠ some k) :
    alLookup d2 (PyKey.tuple k) = alLookup d (PyKey.tuple k) := by
  induction post generalizing d with
  | nil =>
      unfold readLMLines at hok
      cases hok
      rfl
  | cons l rest ih =>
      unfold readLMLines at hok
      cases hpl : processLMLine d l with
      | ok dmid =>
          rw [hpl] at hok
          have h1 := ih dmid hok fun l' hl' => hpost l' (List.mem_cons_of_mem _ hl')
          have h2 := processLMLine_preserve d dmid l k hpl (hpost l (List.mem_cons_self l rest))
          rw [h1, h2]
      | error e => rw [hpl] at hok; cases hok

theorem read_lang_model_cases (lines : List String) (d : LMDict)
    (hok : read_lang_model lines = Except.ok d) :
    ∃ dF, readLMLines [] lines = Except.ok dF ∧
      (d = dF ∨ d = alInsert dF (PyKey.tuple ["<unk>"]) (-100, 0)) := by
  unfold read_lang_model at hok
  split at hok
  · cases hok
  · rename_i dF heq
    split at hok
    · cases hok
      exact ⟨_, heq, Or.inl rfl⟩
    · cases hok
      exact ⟨_, heq, Or.inr rfl⟩

/-- C7 (evaluation at the failing input): an ARPA file that itself defines
the `('<unk>',)` unigram has its value replaced by the default
`(-100.0, 0.0)`, because the source's membership test
`'<unk>' not in lang_model.keys()` compares the bare string against tuple
keys and therefore always holds. -/
theorem read_lang_model_unk_overwrite :
    read_lang_model ["-5.0\t<unk>\t-1.5"] =
      Except.ok [(PyKey.tuple ["<unk>"], ((-100 : ℚ), 0))] := rfl

/-- C8 counterexample: a two-column row whose n-gram is `<unk>` is not
mapped to its parsed log-probability with backoff `0`: the file's
`-5.0` is replaced by the unconditional default `-100`. -/
theorem read_lang_model_unk_row_ne :
    read_lang_model ["-5.0\t<unk>"] =
      Except.ok [(PyKey.tuple ["<unk>"], ((-100 : ℚ), 0))] ∧
    parseFloat "-5.0" = some (-(5 : ℚ)) ∧
    ((-100 : ℚ), (0 : ℚ)) ≠ (-(5 : ℚ), (0 : ℚ)) := by
  refine ⟨rfl, ?_, ?_⟩
  · have h : parseFloat "-5.0" =
        some (-(((5 : ℕ) : ℚ) + ((0 : ℕ) : ℚ) / (10 : ℚ) ^ 1)) := rfl
    rw [h]
    norm_num
  · intro hcontra
    rw [Prod.mk.injEq] at hcontra
    norm_num at hcontra

/-- C8 (amended): every ARPA row with at least two tab-separated columns
maps its n-gram tuple to `(log-probability, backoff)` — the backoff
defaulting to `0` on a two-column row — in the returned mapping, provided
no later row redefines the same n-gram and the n-gram is not the single
token `<unk>`, whose entry is unconditionally overwritten with the
default `(-100.0, 0.0)`. -/
theorem read_lang_model_row_lookup (pre post : List String) (row : String)
    (p g : List Char) (rest : List (List Char)) (q q2 : ℚ) (d : LMDict)
    (hcols : splitTabs (pyStrip row.data) [] = p :: g :: rest)
    (hq : parseFloat ⟨p⟩ = some q)
    (hq2 : (match rest with
            | [] => some 0
            | b :: _ => parseFloat ⟨b⟩) = some q2)
    (hunk : pySplit ⟨g⟩ ≠ ["<unk>"])
    (hpost : ∀ l ∈ post, lmLineKey l ≠ some (pySplit ⟨g⟩))
    (hok : read_lang_model (pre ++ row :: post) = Except.ok d) :
    alLookup d (PyKey.tuple (pySplit ⟨g⟩)) = some (q, q2) := by
  obtain ⟨dF, hfold, hcases⟩ := read_lang_model_cases _ _ hok
  obtain ⟨d1, hpre, hrow⟩ := readLMLines_ok_append pre (row :: post) [] dF hfold
  unfold readLMLines at hrow
  rw [processLMLine_insert d1 row p g rest q q2 hcols hq hq2] at hrow
  have hlook : alLookup dF (PyKey.tuple (pySplit ⟨g⟩)) = some (q, q2) := by
    rw [readLMLines_preserve post _ dF (pySplit ⟨g⟩) hrow hpost]
    exact alLookup_alInsert_self _ _ _
  rcases hcases with hd | hd
  · rw [hd]; exact hlook
  · rw [hd, alLookup_alInsert_ne _ _ _ _ (by simpa using hunk)]
    exact hlook

/-- C8 witness: a two-column row `"-1\tfoo"` followed by an unrelated row
maps `('foo',)` to its parsed log-probability with backoff `0`. -/
theorem read_lang_model_row_lookup_witness :
    alLookup
        [(PyKey.tuple ["foo"], (-((1 : ℕ) : ℚ), 0)),
         (PyKey.tuple ["bar"], (-((2 : ℕ) : ℚ), -((3 : ℕ) : ℚ))),
         (PyKey.tuple ["<unk>"], ((-100 : ℚ), 0))]
        (PyKey.tuple ["foo"]) = some (-((1 : ℕ) : ℚ), 0) :=
  read_lang_model_row_lookup [] ["-2\tbar\t-3"] "-1\tfoo"
    ['-', '1'] ['f', 'o', 'o'] [] (-((1 : ℕ) : ℚ)) 0
    _ rfl rfl rfl (by decide) (by decide) rfl

/-! ### Claim theorems for `read_phrase_table` -/

theorem readPTLines_ok_append (l1 l2 : List String) (pt ptF : PTDict)
    (h : readPTLines pt (l1 ++ l2) = Except.ok ptF) :
    ∃ pt1, readPTLines pt l1 = Except.ok pt1 ∧ readPTLines pt1 l2 = Except.ok ptF := by
  induction l1 generalizing pt with
  | nil => exact ⟨pt, rfl, h⟩
  | cons l rest ih =>
      rw [List.cons_append] at h
      unfold readPTLines at h
      cases hpl : processPTLine pt l with
      | ok pt2 =>
          rw [hpl] at h
          obtain ⟨pt1, h1, h2⟩ := ih pt2 h
          refine ⟨pt1, ?_, h2⟩
          unfold readPTLines
          rw [hpl]
          exact h1
      | error e => rw [hpl] at h; cases h

theorem ptLookup_update_self (pt : PTDict) (src trg : String) (q : ℚ) :
    ptLookup (alInsert pt src (alInsert ((alLookup pt src).getD []) trg q)) src trg =
      some q := by
  unfold ptLookup
  rw [alLookup_alInsert_self]
  exact alLookup_alInsert_self _ _ _

theorem ptLookup_update_ne (pt : PTDict) (src trg s t : String) (q : ℚ)
    (hne : (s, t) ≠ (src, trg)) :
    ptLookup (alInsert pt src (alInsert ((alLookup pt src).getD []) trg q)) s t =
      ptLookup pt s t := by
  by_cases hs : s = src
  · subst hs
    have ht : t ≠ trg := by
      intro h
      exact hne (by rw [h])
    unfold ptLookup
    rw [alLookup_alInsert_self]
    cases hl : alLookup pt s with
    | some inner =>
        exact alLookup_alInsert_ne _ _ _ _ ht
    | none =>
        show alLookup (alInsert ([] : List (String × ℚ)) trg q) t = none
        simp [alInsert, alLookup, Ne.symm ht]
  · unfold ptLookup
    rw [alLookup_alInsert_ne _ _ _ _ hs]

theorem processPTLine_insert (pt : PTDict) (raw : String) (src trg probs : List Char)
    (rest : List (List Char)) (p0 : List Char) (ps : List (List Char)) (q : ℚ)
    (hcols : splitFields (pyStrip raw.data) [] = src :: trg :: probs :: rest)
    (hp0 : splitWS probs [] = p0 :: ps)
    (hq : parseFloat ⟨p0⟩ = some q) :
    processPTLine pt raw =
      Except.ok (alInsert pt ⟨src⟩ (alInsert ((alLookup pt ⟨src⟩).getD []) ⟨trg⟩ q)) := by
  unfold processPTLine
  rw [hcols]
  simp [hp0, hq]

theorem processPTLine_preserve (pt pt2 : PTDict) (raw : String) (s t : String)
    (hok : processPTLine pt raw = Except.ok pt2)
    (hk : ptLineKey raw ≠ some (s, t)) :
    ptLookup pt2 s t = ptLookup pt s t := by
  unfold processPTLine at hok
  unfold ptLineKey at hk
  split at hok
  · rename_i src trg probs rest heq
    rw [heq] at hk
    have hne : (s, t) ≠ (⟨src⟩, ⟨trg⟩) := by
      intro hst
      exact hk (by simp [hst])
    split at hok
    · cases hok
    · split at hok
      · rename_i q0 hq0
        cases hok
        exact ptLookup_update_ne _ _ _ _ _ _ hne
      · cases hok
  · cases hok

theorem readPTLines_preserve (post : List String) (pt pt2 : PTDict) (s t : String)
    (hok : readPTLines pt post = Except.ok pt2)
    (hpost : ∀ l ∈ post, ptLineKey l ≠ some (s, t)) :
    ptLookup pt2 s t = ptLookup pt s t := by
  induction post generalizing pt with
  | nil =>
      unfold readPTLines at hok
      cases hok
      rfl
  | cons l rest ih =>
      unfold readPTLines at hok
      cases hpl : processPTLine pt l with
      | ok ptmid =>
          rw [hpl] at hok
          have h1 := ih ptmid hok fun l' hl' => hpost l' (List.mem_cons_of_mem _ hl')
          have h2 := processPTLine_preserve pt ptmid l s t hpl (hpost l (List.mem_cons_self l rest))
          rw [h1, h2]
      | error e => rw [hpl] at hok; cases hok

/-- C9: every phrase-table record with at least three `' ||| '`-delimited
fields contributes, in the returned nested mapping, the entry taking its
source phrase and its target phrase to the first whitespace-separated
probability field parsed as a number, provided no later record addresses
the same (source, target) pair. -/
theorem read_phrase_table_row_lookup (pre post : List String) (row : String)
    (src trg probs : List Char) (rest : List (List Char)) (p0 : List Char)
    (ps : List (List Char)) (q : ℚ) (pt : PTDict)
    (hcols : splitFields (pyStrip row.data) [] = src :: trg :: probs :: rest)
    (hp0 : splitWS probs [] = p0 :: ps)
    (hq : parseFloat ⟨p0⟩ = some q)
    (hpost : ∀ l ∈ post, ptLineKey l ≠ some (⟨src⟩, ⟨trg⟩))
    (hok : read_phrase_table (pre ++ row :: post) = Except.ok pt) :
    ptLookup pt ⟨src⟩ ⟨trg⟩ = some q := by
  unfold read_phrase_table at hok
  obtain ⟨pt1, hpre, hrow⟩ := readPTLines_ok_append pre (row :: post) [] pt hok
  unfold readPTLines at hrow
  rw [processPTLine_insert pt1 row src trg probs rest p0 ps q hcols hp0 hq] at hrow
  rw [readPTLines_preserve post _ pt _ _ hrow hpost]
  exact ptLookup_update_self pt1 ⟨src⟩ ⟨trg⟩ q

/-- C9 witness: the record `"der ||| the ||| 0.3 0.2"` maps `der`/`the`
to the parsed first probability `0.3`. -/
theorem read_phrase_table_row_lookup_witness :
    ptLookup [("der", [("the", ((0 : ℕ) : ℚ) + ((3 : ℕ) : ℚ) / (10 : ℚ) ^ 1)])]
        "der" "the" = some (((0 : ℕ) : ℚ) + ((3 : ℕ) : ℚ) / (10 : ℚ) ^ 1) :=
  read_phrase_table_row_lookup [] [] "der ||| the ||| 0.3 0.2"
    ['d', 'e', 'r'] ['t', 'h', 'e'] ['0', '.', '3', ' ', '0', '.', '2'] []
    ['0', '.', '3'] [['0', '.', '2']] (((0 : ℕ) : ℚ) + ((3 : ℕ) : ℚ) / (10 : ℚ) ^ 1)
    _ rfl rfl rfl (by simp) rfl

theorem processPTLine_short_error (pt : PTDict) (raw : String)
    (h : (splitFields (pyStrip raw.data) []).length < 3) :
    processPTLine pt raw = Except.error "ValueError: not enough values to unpack" := by
  unfold processPTLine
  split
  · rename_i src trg probs rest heq
    exfalso
    rw [heq] at h
    simp only [List.length_cons] at h
    omega
  · rfl

theorem readPTLines_short_error (lines : List String) :
    ∀ pt l0, l0 ∈ lines → (splitFields (pyStrip l0.data) []).length < 3 →
      ∃ e, readPTLines pt lines = Except.error e := by
  induction lines with
  | nil => intro pt l0 hmem _; cases hmem
  | cons l rest ih =>
      intro pt l0 hmem hlen
      unfold readPTLines
      rcases List.mem_cons.mp hmem with hl | hl
      · subst hl
        rw [processPTLine_short_error pt l0 hlen]
        exact ⟨_, rfl⟩
      · cases hpl : processPTLine pt l with
        | ok pt2 =>
            obtain ⟨e, he⟩ := ih pt2 l0 hl hlen
            exact ⟨e, he⟩
        | error e => exact ⟨e, rfl⟩

/-- C10: an input containing a line with fewer than three
`' ||| '`-delimited fields makes `read_phrase_table` surface an error
(the unpacking of the first three fields fails) rather than skipping the
line or returning a partial table. -/
theorem read_phrase_table_malformed_error (lines : List String)
    (h : ∃ l ∈ lines, (splitFields (pyStrip l.data) []).length < 3) :
    ∃ e, read_phrase_table lines = Except.error e := by
  obtain ⟨l0, hmem, hlen⟩ := h
  unfold read_phrase_table
  exact readPTLines_short_error lines [] l0 hmem hlen

/-- C10 witness: a one-field line makes the reader fail. -/
theorem read_phrase_table_malformed_error_witness :
    (∃ l ∈ ["foo bar"], (splitFields (pyStrip l.data) []).length < 3) ∧
    ∃ e, read_phrase_table ["foo bar"] = Except.error e :=
  ⟨by decide, read_phrase_table_malformed_error ["foo bar"] (by decide)⟩

end NltkTranslate
